import Mathlib

/-!
Verification development for the dependency-graph resolution engine
(`conans/client/graph/graph_manager.py`).

The definitions below are a shallow embedding of that file.  Collaborator
code that lives outside it (the graph builder, the graph/node data module,
the lock model, `ConanFileReference`, the Python stdlib `fnmatch`) is
modelled from the specification where it is needed; each such definition
carries a doc comment saying so.
-/

namespace Conan

/-- Modelled from the spec: a Reference is the immutable tuple
{name, version, user, channel, optional revision}
(`conans/model/ref.py` is not part of the sources under study). -/
structure ConanRef where
  name : String
  version : String
  user : Option String := none
  channel : Option String := none
  revision : Option String := none
deriving DecidableEq, Repr

/-- Modelled from the spec: the printed form of a Reference, used by the
profile pattern match (`str(node.ref)` in the source).  It is
`name/version` followed by `@user/channel` when user and channel are set. -/
def ConanRef.strRef (r : ConanRef) : String :=
  String.mk (r.name.data ++ '/' :: r.version.data ++
    (match r.user, r.channel with
     | some u, some c => '@' :: u.data ++ '/' :: c.data
     | _, _ => []))

/-- Recipe kinds of a node (`RECIPE_CONSUMER`, `RECIPE_VIRTUAL`, ... from
`conans/client/graph/graph.py`, not under the studied sources; the set of
kinds is taken from the spec). -/
inductive RecipeKind
  | consumer
  | virtual
  | regular
  | editable
deriving DecidableEq, Repr

/-- Binary statuses of a node (`BINARY_BUILD`, `BINARY_EDITABLE`, ... of
`conans/client/graph/graph.py`; the set of statuses is taken from the
spec: Unknown, MustBuild, Cached, Download, Editable, Skip). -/
inductive BinaryStatus
  | build
  | editable
  | cache
  | download
  | skip
  | unknown
deriving DecidableEq, Repr

/-- Modelled from the spec: the undecided package-id sentinel
`PACKAGE_ID_UNKNOWN` imported from `conans/model/info.py` (not under the
studied sources). Only its distinguishability matters. -/
def PACKAGE_ID_UNKNOWN : String := "Package_ID_unknown"

/-- A dependency-graph node, restricted to the fields the build-requires
expansion of `graph_manager.py` reads: `node.name`, `node.recipe`,
`node.binary`, `node.package_id` and `node.ref`. -/
structure MNode where
  name : String
  recipe : RecipeKind
  binary : BinaryStatus
  packageId : String
  ref : Option ConanRef
deriving DecidableEq, Repr

/-- `str(node.ref)`: the printed reference of a node; `str(None)` prints
as `"None"` for nodes whose reference is not set. -/
def strRefOf (node : MNode) : String :=
  match node.ref with
  | some r => r.strRef
  | none => "None"

/-! ### Ordered maps (Python `OrderedDict` restricted to the used operations)

`OrderedDict` assignment `m[k] = v` replaces the value in place when the
key exists (keeping its position) and appends the pair otherwise. -/

/-- `k in m` for an ordered association list. -/
def containsKey (m : List (String × α)) (k : String) : Bool :=
  m.any (fun p => p.1 == k)

/-- The key sequence of an ordered association list (iteration order). -/
def keys (m : List (String × α)) : List String :=
  m.map Prod.fst

/-- `m.get(k)` / `m[k]` lookup: first pair with the key. -/
def lookupA (m : List (String × α)) (k : String) : Option α :=
  (m.find? (fun p => p.1 == k)).map Prod.snd

/-- `m[k] = v` on an `OrderedDict`: replace in place if the key exists,
append otherwise. -/
def dictSet : List (String × α) → String → α → List (String × α)
  | [], k, v => [(k, v)]
  | (k', v') :: rest, k, v =>
    if k' = k then (k, v) :: rest else (k', v') :: dictSet rest k v

/-- `OrderedDict.pop(key)` without default: returns the removed value and
the remaining entries, or `none` for Python's `KeyError`. -/
def popKey : List (String × α) → String → Option (α × List (String × α))
  | [], _ => none
  | (k, v) :: rest, key =>
    if k = key then some (v, rest)
    else
      match popKey rest key with
      | none => none
      | some (v', rest') => some (v', (k, v) :: rest')

/-! ### `_RecipeBuildRequires` (graph_manager.py lines 20-42)

An `OrderedDict` subclass whose `add` stores `self[build_require.name] =
build_require`; construction folds `add` over the declared
build-requirements. -/

/-- The ordered name-to-reference map of recipe build-requirements. -/
abbrev RecipeBuildRequires := List (String × ConanRef)

/-- `_RecipeBuildRequires.add`: `self[build_require.name] = build_require`. -/
def RecipeBuildRequires.add (m : RecipeBuildRequires) (br : ConanRef) :
    RecipeBuildRequires :=
  dictSet m br.name br

/-- `_RecipeBuildRequires.__init__` / `update`: fold `add` over a sequence
of build-requirement references. -/
def rbrOf (brs : List ConanRef) : RecipeBuildRequires :=
  brs.foldl RecipeBuildRequires.add []

/-! ### Python `fnmatch` (stdlib, modelled)

Modelled from the documented semantics of `fnmatch.fnmatch` on a
case-sensitive (posix) platform: `*` matches any run of characters, `?`
any single character, `[seq]` a character class (with `!` negation,
ranges, a leading `]` taken literally, and an unterminated `[` matched
literally), every other character matches itself; the whole name must
match. -/

/-- Scan a character class: input is the characters after `[`; the result
is the class body and the remainder after the closing `]`.  A leading `!`
and a leading `]` (after the optional `!`) belong to the body, mirroring
`fnmatch.translate`. -/
def scanClassAux : List Char → List Char → Option (List Char × List Char)
  | [], _ => none
  | c :: rest, acc =>
    if c = ']' then some (acc.reverse, rest)
    else scanClassAux rest (c :: acc)

/-- See `scanClassAux`; handles the leading `!` / `]` special cases. -/
def scanClass (l : List Char) : Option (List Char × List Char) :=
  match l with
  | '!' :: ']' :: rest => scanClassAux rest [']', '!']
  | '!' :: rest => scanClassAux rest ['!']
  | ']' :: rest => scanClassAux rest [']']
  | rest => scanClassAux rest []

theorem scanClassAux_length :
    ∀ (l acc content rest : List Char),
      scanClassAux l acc = some (content, rest) → rest.length < l.length := by
  intro l
  induction l with
  | nil => intro acc content rest h; simp [scanClassAux] at h
  | cons c cs ih =>
    intro acc content rest h
    simp only [scanClassAux] at h
    by_cases hc : c = ']'
    · rw [if_pos hc] at h
      cases h
      simp
    · rw [if_neg hc] at h
      have := ih (c :: acc) content rest h
      simp
      omega

theorem scanClass_length :
    ∀ (l content rest : List Char),
      scanClass l = some (content, rest) → rest.length < l.length := by
  intro l content rest h
  unfold scanClass at h
  split at h
  · have := scanClassAux_length _ _ _ _ h; simp_all; omega
  · have := scanClassAux_length _ _ _ _ h; simp_all; omega
  · have := scanClassAux_length _ _ _ _ h; simp_all; omega
  · exact scanClassAux_length _ _ _ _ h

/-- Membership of a character in a class body, with `-` ranges; a `-`
without both endpoints is literal. -/
def classItems : List Char → Char → Bool
  | a :: '-' :: b :: rest, c =>
    (decide (a ≤ c) && decide (c ≤ b)) || classItems rest c
  | a :: rest, c => decide (a = c) || classItems rest c
  | [], _ => false

/-- Class match including the `!` negation marker. -/
def classMatch (content : List Char) (c : Char) : Bool :=
  match content with
  | '!' :: items => !(classItems items c)
  | items => classItems items c

/-- The glob matcher over character lists (pattern first). -/
def globMatch : List Char → List Char → Bool
  | [], s => s.isEmpty
  | p :: ps, s =>
    if p = '*' then
      globMatch ps s ||
        (match s with
         | [] => false
         | _ :: cs => globMatch (p :: ps) cs)
    else if p = '?' then
      match s with
      | [] => false
      | _ :: cs => globMatch ps cs
    else if hp : p = '[' then
      match hscan : scanClass ps with
      | none =>
        match s with
        | [] => false
        | c :: cs => decide (c = '[') && globMatch ps cs
      | some (content, rest) =>
        match s with
        | [] => false
        | c :: cs => classMatch content c && globMatch rest cs
    else
      match s with
      | [] => false
      | c :: cs => decide (c = p) && globMatch ps cs
termination_by p s => p.length + s.length
decreasing_by
  all_goals simp
  all_goals try omega
  have := scanClass_length _ _ _ hscan
  omega

/-- `fnmatch.fnmatch(name, pattern)` (posix: `normcase` is the identity). -/
def fnmatch (nameStr pattern : String) : Bool :=
  globMatch pattern.data nameStr.data

/-! ### Build-requires expansion (`_recurse_build_requires`, lines 215-272) -/

/-- The profile pattern match of lines 243-245:
`(node.recipe == RECIPE_CONSUMER and pattern == "&") or
 (node.recipe != RECIPE_CONSUMER and pattern == "&!") or
 fnmatch.fnmatch(str_ref, pattern)`. -/
def profilePatternMatch (node : MNode) (pattern : String) : Bool :=
  (node.recipe == RecipeKind.consumer && pattern == "&") ||
  (node.recipe != RecipeKind.consumer && pattern == "&!") ||
  fnmatch (strRefOf node) pattern

/-- The node guard of lines 232-237, as a single boolean: the node's
build-requirements are evaluated unless one of the two `continue`
statements fires (Virtual recipe, or: binary not in (BINARY_BUILD,
BINARY_EDITABLE) and recipe != RECIPE_CONSUMER and package_id !=
PACKAGE_ID_UNKNOWN). -/
def evalBuildRequires (node : MNode) : Bool :=
  if node.recipe == RecipeKind.virtual then false
  else if node.binary != BinaryStatus.build && node.binary != BinaryStatus.editable
      && node.recipe != RecipeKind.consumer && node.packageId != PACKAGE_ID_UNKNOWN then
    false
  else true

/-- One profile build-requirement applied to the pair
(package_build_requires, new_profile_build_requires) — lines 246-253:
an already-declared name is overridden in place, a fresh name different
from the node's own name is appended to the profile-introduced list, and
a fresh name equal to the node's own name is dropped. -/
def applyProfileBR (nodeName : String)
    (st : RecipeBuildRequires × List ConanRef) (br : ConanRef) :
    RecipeBuildRequires × List ConanRef :=
  if containsKey st.1 br.name then (dictSet st.1 br.name br, st.2)
  else if br.name ≠ nodeName then (st.1, st.2 ++ [br])
  else st

/-- The profile loop of lines 240-253: fold every build-requirement of
every profile entry whose pattern matches the node, starting from the
recipe-declared map and an empty profile-introduced list. -/
def processProfile (node : MNode) (profile : List (String × List ConanRef))
    (pkg0 : RecipeBuildRequires) : RecipeBuildRequires × List ConanRef :=
  profile.foldl
    (fun st entry =>
      if profilePatternMatch node entry.1 then
        entry.2.foldl (applyProfileBR node.name) st
      else st)
    (pkg0, [])

/-- The collaborators of the expansion, as functions of a package name:
`declaredBR` models `_get_recipe_build_requires` (the recipe's declared
build-requirements after its `build_requirements()` callback, as the
sequence of `add` calls), `binaryOf`/`pkgIdOf` model the Binary Analyzer's
per-node decisions (`evaluate_graph`, external collaborator). -/
structure BREnv where
  declaredBR : String → List ConanRef
  binaryOf : String → BinaryStatus
  pkgIdOf : String → String

/-- Modelled from the spec: `DepsGraphBuilder.extend_build_requires`
(`graph_builder.py`, not under the studied sources) returns the newly
added portion of the graph: one node per new requirement, evaluated by
the Binary Analyzer before the recursive call. -/
def mkBRNode (env : BREnv) (br : ConanRef) : MNode :=
  ⟨br.name, RecipeKind.regular, env.binaryOf br.name, env.pkgIdOf br.name, some br⟩

/-- The body of `_recurse_build_requires`: iterate the subgraph's nodes in
order; for each non-skipped node compute the recipe map and the profile
split, then (lines 255-263) extend with the declared map and recurse with
the same profile, and (lines 265-272) extend with the profile-introduced
list and recurse with an empty profile.  `recurse` is the recursive call
one stack frame deeper; `none` models a recursion that exhausts the
modelled stack. -/
def recurseStep (env : BREnv)
    (recurse : List (String × List ConanRef) → List MNode → Option Unit) :
    List (String × List ConanRef) → List MNode → Option Unit
  | _, [] => some ()
  | profile, node :: rest =>
    if evalBuildRequires node = false then recurseStep env recurse profile rest
    else
      let st := processProfile node profile (rbrOf (env.declaredBR node.name))
      let r1 := if st.1.isEmpty then some ()
                else recurse profile (st.1.map (fun p => mkBRNode env p.2))
      let r2 := if st.2.isEmpty then some ()
                else recurse [] (st.2.map (fun b => mkBRNode env b))
      match r1, r2 with
      | some _, some _ => recurseStep env recurse profile rest
      | _, _ => none

/-- `_recurse_build_requires` with an explicit bound on recursion depth:
`none` means the bound was hit (the Python recursion would still be
running deeper than `fuel` frames). -/
def recurseBuildRequires (env : BREnv) :
    Nat → List (String × List ConanRef) → List MNode → Option Unit
  | 0, _, _ => none
  | fuel + 1, profile, subgraph =>
    recurseStep env (recurseBuildRequires env fuel) profile subgraph

/-- The largest `rank` of a node name in a subgraph (0 when empty). -/
def maxRank (rank : String → Nat) (l : List MNode) : Nat :=
  l.foldr (fun n acc => max (rank n.name) acc) 0

/-- Recursion-depth measure for the expansion: a round with a non-empty
profile policy may open one policy-free branch (`R + 1`), after which
only declared build-requirement chains (of rank at most `maxRank`)
remain. -/
def brMeasure (rank : String → Nat) (R : Nat)
    (profile : List (String × List ConanRef)) (l : List MNode) : Nat :=
  (if profile.isEmpty then 0 else R + 1) + maxRank rank l

/-! ### Closure ordering (`_load_graph`, lines 288-296) -/

/-- The dict comprehension of line 289:
`{n: i for i, level in enumerate(graph.inverse_levels()) for n in level}`
(a later level wins for a name listed twice); `none` is the `KeyError`
of a name in no level. -/
def inverseLevelIndex (levels : List (List String)) (n : String) : Option Nat :=
  (levels.enum).foldl (fun acc p => if n ∈ p.2 then some p.1 else acc) none

/-- Stable insertion of `x` into a list ordered by `key`: `x` goes before
the first element of strictly larger key, hence after every element of
equal key already present. -/
def sortInsert (key : ν → Nat) (x : ν) : List ν → List ν
  | [] => [x]
  | y :: ys => if key x ≤ key y then x :: y :: ys else y :: sortInsert key x ys

/-- `list.sort(key=...)`: a stable sort by a natural-number key (Python's
sort is stable; any stable sort by key computes the same list). -/
def stableSortBy (key : ν → Nat) : List ν → List ν
  | [] => []
  | x :: xs => sortInsert key x (stableSortBy key xs)

/-- Lines 291-296 for one node: `closure.pop(node.name)` (a `KeyError`,
modelled as `none`, if the closure has no entry under the node's own
name), then the stable sort of the remaining values by inverse level. -/
def orderClosure (lvlOf : ν → Nat) (nodeName : String)
    (closure : List (String × ν)) : Option (List ν) :=
  match popKey closure nodeName with
  | none => none
  | some (_, remaining) => some (stableSortBy lvlOf (remaining.map Prod.snd))

/-! ### Graph lock handling (`load_graph`, lines 190-193) -/

/-- What the lock records per node id.  Modelled from the spec: the locked
reference/revision and build-requirement set. -/
structure LockRecord where
  ref : ConanRef
  lockedBuildRequires : List ConanRef
deriving DecidableEq, Repr

/-- A resolved node as the lock reconciliation sees it. -/
structure LockNode where
  id : Nat
  ref : ConanRef
  resolvedBuildRequires : List ConanRef
deriving DecidableEq, Repr

/-- The record a resolved node would produce. -/
def recordOf (n : LockNode) : LockRecord :=
  ⟨n.ref, n.resolvedBuildRequires⟩

/-- Modelled from the spec: `GraphLock(deps_graph)` seeds a fresh lock
from the resolved graph (`conans/model/graph_lock.py` is not under the
studied sources). -/
def seedGraphLock (g : List LockNode) : List (Nat × LockRecord) :=
  g.map (fun n => (n.id, recordOf n))

/-- Modelled from the spec: a pre-existing lock is inconsistent when some
node id present in the lock now resolves to a different
reference/revision/build-requirement set than recorded. -/
def lockMismatch (lock : List (Nat × LockRecord)) (g : List LockNode) : Bool :=
  lock.any (fun p =>
    match g.find? (fun n => n.id == p.1) with
    | some n => !(recordOf n == p.2)
    | none => false)

/-- Lines 190-193 of `load_graph`: seed a fresh `GraphLock` when none was
supplied, otherwise run `update_check_graph` on the pre-existing lock —
modelled from the spec as failing with `LockInconsistencyError` on a
mismatch and leaving the lock unchanged otherwise. -/
def finishGraphLock (lockOpt : Option (List (Nat × LockRecord)))
    (g : List LockNode) : Except String (List (Nat × LockRecord)) :=
  match lockOpt with
  | none => Except.ok (seedGraphLock g)
  | some lock =>
    if lockMismatch lock g then Except.error "LockInconsistencyError"
    else Except.ok lock

/-! ### Root-node creation (`load_graph`, lines 122-174) -/

/-- The three shapes of `load_graph`'s `reference` argument: a list of
references (workspace install), a single `ConanFileReference`, or a
recipe path. -/
inductive RootRef
  | refList : List ConanRef → RootRef
  | confRef : ConanRef → RootRef
  | path : String → RootRef

/-- The root node: its (optional) reference and recipe kind. -/
structure RootNode where
  ref : Option ConanRef
  recipe : RecipeKind
deriving DecidableEq, Repr

/-- The message of the revision guard at lines 130-131. -/
def revisionErrorMsg : String :=
  "Revisions not enabled in the client, specify a reference without revision"

/-- Root-node creation of `load_graph` (lines 124-174), restricted to what
the claims need: a reference list yields a Virtual root; a single
reference is first checked against the client's `revisions_enabled`
configuration (lines 128-131) — a revision-carrying reference with
revisions disabled raises before any node exists — and otherwise yields a
Virtual root; a path yields the Consumer root (recipe loading itself is
an external collaborator). -/
def loadGraphRootNode (revisionsEnabled : Bool) (reference : RootRef) :
    Except String RootNode :=
  match reference with
  | RootRef.refList _ => Except.ok ⟨none, RecipeKind.virtual⟩
  | RootRef.confRef r =>
    if revisionsEnabled = false ∧ r.revision ≠ none then
      Except.error revisionErrorMsg
    else Except.ok ⟨none, RecipeKind.virtual⟩
  | RootRef.path _ => Except.ok ⟨none, RecipeKind.consumer⟩

/-! ### Spec-side definitions (refinement targets for the ordered-map claim) -/

/-- Spec-side definition, following the spec's words: iteration order of
the build-requirements container is the order of first insertion of each
name. -/
def specFirstInsertionOrder (ns : List String) : List String :=
  ns.foldl (fun acc n => if n ∈ acc then acc else acc ++ [n]) []

/-- Spec-side definition, following the spec's words: the last add for a
given name wins. -/
def specLastAddWins (brs : List ConanRef) (n : String) : Option ConanRef :=
  brs.reverse.find? (fun b => b.name == n)

/-! ## Ordered-map lemmas -/

theorem containsKey_iff (m : List (String × α)) (k : String) :
    containsKey m k = true ↔ k ∈ keys m := by
  simp [containsKey, keys, List.any_eq_true, List.mem_map, beq_iff_eq]

theorem dictSet_keys_of_contains (m : List (String × α)) (k : String) (v : α)
    (h : containsKey m k = true) : keys (dictSet m k v) = keys m := by
  induction m with
  | nil => simp [containsKey] at h
  | cons p rest ih =>
    obtain ⟨k', v'⟩ := p
    by_cases hk : k' = k
    · subst hk; simp [dictSet, keys]
    · have h' : containsKey rest k = true := by
        simpa [containsKey, hk] using h
      simp only [dictSet, if_neg hk, keys, List.map_cons]
      have := ih h'
      simp only [keys] at this
      rw [this]

theorem dictSet_of_not_contains (m : List (String × α)) (k : String) (v : α)
    (h : containsKey m k = false) : dictSet m k v = m ++ [(k, v)] := by
  induction m with
  | nil => simp [dictSet]
  | cons p rest ih =>
    obtain ⟨k', v'⟩ := p
    rw [containsKey, List.any_cons, Bool.or_eq_false_iff] at h
    obtain ⟨h1, h2⟩ := h
    have hk : k' ≠ k := by simpa using h1
    rw [dictSet, if_neg hk, ih (by simpa [containsKey] using h2)]
    simp

theorem lookupA_dictSet (m : List (String × α)) (k n : String) (v : α) :
    lookupA (dictSet m k v) n = if k = n then some v else lookupA m n := by
  induction m with
  | nil =>
    by_cases hn : k = n <;> simp [dictSet, lookupA, List.find?_cons, hn]
  | cons p rest ih =>
    obtain ⟨k', v'⟩ := p
    by_cases hk : k' = k
    · subst hk
      by_cases hn : k' = n <;>
        simp [dictSet, lookupA, List.find?_cons, hn]
    · by_cases hn : k' = n
      · subst hn
        have hkn : ¬ k = k' := fun hh => hk hh.symm
        simp [dictSet, hk, lookupA, List.find?_cons, hkn]
      · simp only [dictSet, if_neg hk]
        have hfind : lookupA ((k', v') :: dictSet rest k v) n
            = lookupA (dictSet rest k v) n := by
          simp [lookupA, List.find?_cons, hn]
        rw [hfind, ih]
        by_cases hknn : k = n <;> simp [hknn, lookupA, List.find?_cons, hn]

theorem dictSet_mem (m : List (String × α)) (k : String) (v : α)
    (p : String × α) (h : p ∈ dictSet m k v) : p ∈ m ∨ p = (k, v) := by
  induction m with
  | nil => simp [dictSet] at h; simp [h]
  | cons q rest ih =>
    obtain ⟨k', v'⟩ := q
    by_cases hk : k' = k
    · subst hk
      simp [dictSet] at h
      rcases h with h | h
      · right; simp [h]
      · left; simp [h]
    · simp [dictSet, hk] at h
      rcases h with h | h
      · left; simp [h]
      · rcases ih h with h' | h'
        · left; simp [h']
        · right; exact h'

theorem popKey_isSome (m : List (String × α)) (key : String) :
    (popKey m key).isSome = containsKey m key := by
  induction m with
  | nil => simp [popKey, containsKey]
  | cons p rest ih =>
    obtain ⟨k, v⟩ := p
    by_cases hk : k = key
    · simp [popKey, hk, containsKey]
    · simp only [popKey, if_neg hk]
      have hck : containsKey ((k, v) :: rest) key = containsKey rest key := by
        simp [containsKey, hk]
      rw [hck, ← ih]
      cases hpop : popKey rest key with
      | none => simp [hpop]
      | some pr => obtain ⟨v', rest'⟩ := pr; simp [hpop]

theorem popKey_keys (m : List (String × α)) (key : String) (v : α)
    (rest : List (String × α)) (h : popKey m key = some (v, rest)) :
    keys rest = (keys m).erase key := by
  induction m generalizing v rest with
  | nil => simp [popKey] at h
  | cons p tail ih =>
    obtain ⟨k, v'⟩ := p
    by_cases hk : k = key
    · subst hk
      simp [popKey] at h
      simp [keys, h, List.erase_cons_head]
    · simp only [popKey, if_neg hk] at h
      cases hpop : popKey tail key with
      | none => rw [hpop] at h; simp at h
      | some pr =>
        obtain ⟨v2, rest2⟩ := pr
        rw [hpop] at h
        cases h
        have hkeys2 : keys rest2 = (keys tail).erase key := ih _ _ hpop
        simp only [keys, List.map_cons]
        rw [List.erase_cons_tail (by simp [hk])]
        simp only [keys] at hkeys2
        rw [hkeys2]

/-! ## C8: `_RecipeBuildRequires` is an ordered map with override-on-add -/

theorem rbrAdd_keys_of_contains (m : RecipeBuildRequires) (br : ConanRef)
    (h : containsKey m br.name = true) :
    keys (RecipeBuildRequires.add m br) = keys m :=
  dictSet_keys_of_contains m br.name br h

theorem rbrAdd_of_not_contains (m : RecipeBuildRequires) (br : ConanRef)
    (h : containsKey m br.name = false) :
    RecipeBuildRequires.add m br = m ++ [(br.name, br)] :=
  dictSet_of_not_contains m br.name br h

theorem not_contains_of_not_mem_keys (m : List (String × α)) (k : String)
    (h : k ∉ keys m) : containsKey m k = false := by
  by_cases hc : containsKey m k
  · exact absurd ((containsKey_iff m k).1 (by simpa using hc)) h
  · simpa using hc

theorem keys_rbrAdd (m : RecipeBuildRequires) (br : ConanRef) :
    keys (RecipeBuildRequires.add m br) =
      if br.name ∈ keys m then keys m else keys m ++ [br.name] := by
  by_cases h : br.name ∈ keys m
  · rw [if_pos h]
    exact rbrAdd_keys_of_contains m br ((containsKey_iff _ _).2 h)
  · rw [if_neg h, rbrAdd_of_not_contains m br (not_contains_of_not_mem_keys m _ h)]
    simp [keys]

theorem keys_foldl_rbrAdd (brs : List ConanRef) :
    ∀ m : RecipeBuildRequires,
      keys (brs.foldl RecipeBuildRequires.add m) =
        (brs.map ConanRef.name).foldl
          (fun acc n => if n ∈ acc then acc else acc ++ [n]) (keys m) := by
  induction brs with
  | nil => intro m; simp
  | cons b bs ih =>
    intro m
    simp only [List.foldl_cons, List.map_cons]
    rw [ih, keys_rbrAdd]

theorem lookupA_rbrAdd (m : RecipeBuildRequires) (br : ConanRef) (n : String) :
    lookupA (RecipeBuildRequires.add m br) n =
      if br.name = n then some br else lookupA m n :=
  lookupA_dictSet m br.name n br

theorem specLastAddWins_cons (b : ConanRef) (bs : List ConanRef) (n : String) :
    specLastAddWins (b :: bs) n =
      match specLastAddWins bs n with
      | some x => some x
      | none => if b.name = n then some b else none := by
  simp only [specLastAddWins, List.reverse_cons, List.find?_append]
  cases bs.reverse.find? (fun x => x.name == n) with
  | some x => simp [Option.or]
  | none =>
    have hfind : List.find? (fun x => x.name == n) [b] =
        if b.name = n then some b else none := by
      by_cases hb : b.name = n
      · simp [List.find?, hb]
      · have hbeq : (b.name == n) = false := by simp [hb]
        simp [List.find?, hbeq, hb]
    simp [Option.or, hfind]

theorem lookupA_foldl_rbrAdd (brs : List ConanRef) (n : String) :
    ∀ m : RecipeBuildRequires,
      lookupA (brs.foldl RecipeBuildRequires.add m) n =
        match specLastAddWins brs n with
        | some b => some b
        | none => lookupA m n := by
  induction brs with
  | nil => intro m; simp [specLastAddWins]
  | cons b bs ih =>
    intro m
    simp only [List.foldl_cons]
    rw [ih, specLastAddWins_cons]
    cases specLastAddWins bs n with
    | some x => rfl
    | none =>
      simp only
      rw [lookupA_rbrAdd]
      by_cases hb : b.name = n <;> simp [hb]

/-- C8: the recipe build-requirements container (`_RecipeBuildRequires`)
is an ordered map with override-on-add semantics: an `add` whose name is
already a key replaces the value in place (same key sequence, new value);
an `add` with a fresh name appends; and for any sequence of adds the
iteration order is the order of first insertion of each name while the
last add for a given name wins. -/
theorem recipe_build_requires_ordered_override :
    (∀ (m : RecipeBuildRequires) (br : ConanRef),
      containsKey m br.name = true →
        keys (RecipeBuildRequires.add m br) = keys m ∧
        lookupA (RecipeBuildRequires.add m br) br.name = some br) ∧
    (∀ (m : RecipeBuildRequires) (br : ConanRef),
      containsKey m br.name = false →
        RecipeBuildRequires.add m br = m ++ [(br.name, br)]) ∧
    (∀ brs : List ConanRef,
      keys (rbrOf brs) = specFirstInsertionOrder (brs.map ConanRef.name)) ∧
    (∀ (brs : List ConanRef) (n : String),
      lookupA (rbrOf brs) n = specLastAddWins brs n) := by
  refine ⟨?_, ?_, ?_, ?_⟩
  · intro m br h
    refine ⟨rbrAdd_keys_of_contains m br h, ?_⟩
    rw [lookupA_rbrAdd]
    simp
  · exact rbrAdd_of_not_contains
  · intro brs
    rw [rbrOf, keys_foldl_rbrAdd]
    rfl
  · intro brs n
    rw [rbrOf, lookupA_foldl_rbrAdd]
    cases specLastAddWins brs n with
    | some b => rfl
    | none => simp [lookupA]

/-- Witness for C8 at a concrete sequence of adds. -/
theorem recipe_build_requires_ordered_override_witness :
    containsKey [("toolA", (⟨"toolA", "1.0", none, none, none⟩ : ConanRef))]
        (⟨"toolA", "2.0", none, none, none⟩ : ConanRef).name = true ∧
    (keys (RecipeBuildRequires.add
        [("toolA", (⟨"toolA", "1.0", none, none, none⟩ : ConanRef))]
        ⟨"toolA", "2.0", none, none, none⟩) =
      keys [("toolA", (⟨"toolA", "1.0", none, none, none⟩ : ConanRef))] ∧
     lookupA (RecipeBuildRequires.add
        [("toolA", (⟨"toolA", "1.0", none, none, none⟩ : ConanRef))]
        ⟨"toolA", "2.0", none, none, none⟩)
        (⟨"toolA", "2.0", none, none, none⟩ : ConanRef).name =
      some ⟨"toolA", "2.0", none, none, none⟩) :=
  ⟨by decide,
   recipe_build_requires_ordered_override.1
     [("toolA", ⟨"toolA", "1.0", none, none, none⟩)]
     ⟨"toolA", "2.0", none, none, none⟩ (by decide)⟩

/-! ## C3: profile override replaces in place -/

/-- C3: when a profile entry's pattern matches a node, its requirements
are folded over the node's ordered map; a profile build-requirement whose
name is already a key of the recipe-declared map replaces the stored
value while the key sequence (hence the entry's position) is unchanged,
and the profile-introduced list is not extended. -/
theorem profile_override_in_place :
    (∀ (node : MNode) (pat : String) (brs : List ConanRef)
        (pkg0 : RecipeBuildRequires),
      profilePatternMatch node pat = true →
        processProfile node [(pat, brs)] pkg0 =
          brs.foldl (applyProfileBR node.name) (pkg0, [])) ∧
    (∀ (nodeName : String) (pkg : RecipeBuildRequires)
        (newProf : List ConanRef) (br : ConanRef),
      containsKey pkg br.name = true →
        applyProfileBR nodeName (pkg, newProf) br =
          (dictSet pkg br.name br, newProf) ∧
        keys (dictSet pkg br.name br) = keys pkg ∧
        lookupA (dictSet pkg br.name br) br.name = some br) := by
  constructor
  · intro node pat brs pkg0 h
    simp [processProfile, h]
  · intro nodeName pkg newProf br h
    refine ⟨?_, dictSet_keys_of_contains pkg br.name br h, ?_⟩
    · rw [applyProfileBR]
      simp [h]
    · rw [lookupA_dictSet]
      simp

def toolX10 : ConanRef := ⟨"toolX", "1.0", none, none, none⟩

def toolX20 : ConanRef := ⟨"toolX", "2.0", none, none, none⟩

/-- Witness for C3: the spec's example — a recipe-declared `toolX/1.0`
overridden in place by a profile `toolX/2.0`. -/
theorem profile_override_in_place_witness :
    containsKey [("toolX", toolX10)] toolX20.name = true ∧
    (applyProfileBR "consumerpkg" ([("toolX", toolX10)], []) toolX20 =
        (dictSet [("toolX", toolX10)] toolX20.name toolX20, []) ∧
      keys (dictSet [("toolX", toolX10)] toolX20.name toolX20) =
        keys [("toolX", toolX10)] ∧
      lookupA (dictSet [("toolX", toolX10)] toolX20.name toolX20) toolX20.name =
        some toolX20) ∧
    dictSet [("toolX", toolX10)] toolX20.name toolX20 = [("toolX", toolX20)] :=
  ⟨by decide,
   profile_override_in_place.2 "consumerpkg" [("toolX", toolX10)] [] toolX20
     (by decide),
   by decide⟩

/-! ## C9: a package is never made a build-requirement of itself by policy -/

theorem applyProfileBR_newProf_cases (nodeName : String)
    (st : RecipeBuildRequires × List ConanRef) (br : ConanRef) :
    ∀ b ∈ (applyProfileBR nodeName st br).2,
      b ∈ st.2 ∨ (b = br ∧ br.name ≠ nodeName) := by
  intro b hb
  rw [applyProfileBR] at hb
  by_cases hc : containsKey st.1 br.name = true
  · rw [if_pos hc] at hb
    exact Or.inl hb
  · rw [if_neg hc] at hb
    by_cases hn : br.name ≠ nodeName
    · rw [if_pos hn] at hb
      simp at hb
      rcases hb with hb | hb
      · exact Or.inl hb
      · exact Or.inr ⟨hb, hn⟩
    · rw [if_neg hn] at hb
      exact Or.inl hb

theorem foldl_applyProfileBR_newProf (nodeName : String) (brs : List ConanRef) :
    ∀ st : RecipeBuildRequires × List ConanRef,
      (∀ b ∈ st.2, b.name ≠ nodeName) →
      ∀ b ∈ (brs.foldl (applyProfileBR nodeName) st).2, b.name ≠ nodeName := by
  induction brs with
  | nil => intro st hst; exact hst
  | cons x xs ih =>
    intro st hst
    simp only [List.foldl_cons]
    apply ih
    intro b hb
    rcases applyProfileBR_newProf_cases nodeName st x b hb with h | ⟨hbx, hx⟩
    · exact hst b h
    · rw [hbx]; exact hx

theorem processProfile_newProf (node : MNode)
    (profile : List (String × List ConanRef)) (pkg0 : RecipeBuildRequires) :
    ∀ b ∈ (processProfile node profile pkg0).2, b.name ≠ node.name := by
  rw [processProfile]
  suffices H : ∀ (entries : List (String × List ConanRef))
      (st : RecipeBuildRequires × List ConanRef),
      (∀ b ∈ st.2, b.name ≠ node.name) →
      ∀ b ∈ (entries.foldl
        (fun st entry =>
          if profilePatternMatch node entry.1 then
            entry.2.foldl (applyProfileBR node.name) st
          else st) st).2, b.name ≠ node.name by
    intro b hb
    exact H profile (pkg0, []) (by simp) b hb
  intro entries
  induction entries with
  | nil => intro st hst; exact hst
  | cons e es ih =>
    intro st hst
    simp only [List.foldl_cons]
    apply ih
    by_cases hm : profilePatternMatch node e.1 = true
    · rw [if_pos hm]
      exact foldl_applyProfileBR_newProf node.name e.2 st hst
    · rw [if_neg hm]
      exact hst

/-- C9: a profile build-requirement whose name equals the node's own name
(and is not a recipe-declared override) is discarded: every entry of the
profile-introduced list `new_profile_build_requires` — the list the
profile-only branch extends the graph with — has a name different from
the node being extended. -/
theorem no_self_build_require_from_profile (node : MNode)
    (profile : List (String × List ConanRef)) (pkg0 : RecipeBuildRequires)
    (br : ConanRef) (h : br ∈ (processProfile node profile pkg0).2) :
    br.name ≠ node.name :=
  processProfile_newProf node profile pkg0 br h

def wRegNode : MNode :=
  ⟨"mypkg", RecipeKind.regular, BinaryStatus.build, "pid", none⟩

def cmakeRef : ConanRef := ⟨"cmake", "3.20", none, none, none⟩

def selfRef : ConanRef := ⟨"mypkg", "9.9", none, none, none⟩

/-- Witness for C9: a blanket `&!` policy carrying both a fresh tool and
the node's own name keeps the tool and drops the self-reference. -/
theorem no_self_build_require_from_profile_witness :
    cmakeRef ∈ (processProfile wRegNode [("&!", [cmakeRef, selfRef])] []).2 ∧
    cmakeRef.name ≠ wRegNode.name :=
  ⟨by decide,
   no_self_build_require_from_profile wRegNode [("&!", [cmakeRef, selfRef])] []
     cmakeRef (by decide)⟩

/-! ## C2: which nodes get their build-requirements evaluated -/

/-- C2: a node's build-requirements are evaluated iff it is not Virtual
and (its binary status is MustBuild or Editable, or its recipe kind is
Consumer, or its package id is still the undecided sentinel); a skipped
node contributes nothing to the expansion — the loop continues with the
remaining nodes of the subgraph unchanged. -/
theorem build_requires_evaluation_guard (node : MNode) :
    (evalBuildRequires node = true ↔
      (node.recipe ≠ RecipeKind.virtual ∧
        (node.binary = BinaryStatus.build ∨ node.binary = BinaryStatus.editable ∨
         node.recipe = RecipeKind.consumer ∨
         node.packageId = PACKAGE_ID_UNKNOWN))) ∧
    (∀ (env : BREnv) (fuel : Nat) (profile : List (String × List ConanRef))
        (rest : List MNode),
      evalBuildRequires node = false →
        recurseBuildRequires env (fuel + 1) profile (node :: rest) =
          recurseBuildRequires env (fuel + 1) profile rest) := by
  constructor
  · obtain ⟨nm, rc, bn, pid, rf⟩ := node
    by_cases hp : pid = PACKAGE_ID_UNKNOWN <;>
      cases rc <;> cases bn <;> simp [evalBuildRequires, hp]
  · intro env fuel profile rest h
    simp only [recurseBuildRequires, recurseStep]
    rw [if_pos h]

def wSkipNode : MNode :=
  ⟨"lib", RecipeKind.regular, BinaryStatus.cache, "0123abc", none⟩

def wEmptyEnv : BREnv :=
  ⟨fun _ => [], fun _ => BinaryStatus.cache, fun _ => "0123abc"⟩

/-- Witness for C2: a cached regular node with a known package id is
skipped without touching the expansion. -/
theorem build_requires_evaluation_guard_witness :
    evalBuildRequires wSkipNode = false ∧
    recurseBuildRequires wEmptyEnv 3 [] [wSkipNode] =
      recurseBuildRequires wEmptyEnv 3 [] [] :=
  ⟨by decide,
   (build_requires_evaluation_guard wSkipNode).2 wEmptyEnv 2 [] [] (by decide)⟩

/-! ## C4: semantics of the profile patterns -/

theorem globMatch_literal (p : List Char)
    (hp : ∀ c ∈ p, c ≠ '*' ∧ c ≠ '?' ∧ c ≠ '[') :
    ∀ s, globMatch p s = true ↔ s = p := by
  induction p with
  | nil =>
    intro s
    cases s <;> simp [globMatch]
  | cons c cs ih =>
    intro s
    obtain ⟨hc1, hc2, hc3⟩ := hp c (by simp)
    have hcs : ∀ x ∈ cs, x ≠ '*' ∧ x ≠ '?' ∧ x ≠ '[' :=
      fun x hx => hp x (by simp [hx])
    cases s with
    | nil => simp [globMatch, hc1, hc2, hc3]
    | cons a as =>
      have hrest := ih hcs as
      simp [globMatch, hc1, hc2, hc3, hrest]

theorem fnmatch_literal (s p : String)
    (hp : ∀ c ∈ p.data, c ≠ '*' ∧ c ≠ '?' ∧ c ≠ '[') :
    fnmatch s p = true ↔ s.data = p.data := by
  rw [fnmatch]
  exact globMatch_literal p.data hp s.data

theorem slash_mem_strRef (r : ConanRef) : '/' ∈ (ConanRef.strRef r).data := by
  rw [ConanRef.strRef]
  simp

theorem fnmatch_strRefOf_eq_false (node : MNode) (pat : String)
    (hlit : ∀ c ∈ pat.data, c ≠ '*' ∧ c ≠ '?' ∧ c ≠ '[')
    (hslash : '/' ∉ pat.data) (hnone : ¬("None".data = pat.data)) :
    fnmatch (strRefOf node) pat = false := by
  cases hr : node.ref with
  | none =>
    rw [strRefOf, hr]
    cases hf : fnmatch "None" pat with
    | false => rfl
    | true => exact absurd ((fnmatch_literal _ _ hlit).1 hf) hnone
  | some r =>
    rw [strRefOf, hr]
    cases hf : fnmatch r.strRef pat with
    | false => rfl
    | true =>
      have hdata := (fnmatch_literal _ _ hlit).1 hf
      have hs := slash_mem_strRef r
      rw [hdata] at hs
      exact absurd hs hslash

/-- C4: a profile pattern matches a node exactly as the spec says — `&`
iff the node is the Consumer root, `&!` iff it is not, and any other
pattern iff the node's printed reference matches it as a glob. -/
theorem profile_pattern_match_spec (node : MNode) :
    (profilePatternMatch node "&" = true ↔
      node.recipe = RecipeKind.consumer) ∧
    (profilePatternMatch node "&!" = true ↔
      node.recipe ≠ RecipeKind.consumer) ∧
    (∀ pattern : String, pattern ≠ "&" → pattern ≠ "&!" →
      (profilePatternMatch node pattern = true ↔
        fnmatch (strRefOf node) pattern = true)) := by
  have hamp : fnmatch (strRefOf node) "&" = false :=
    fnmatch_strRefOf_eq_false node "&" (by decide) (by decide) (by decide)
  have hampb : fnmatch (strRefOf node) "&!" = false :=
    fnmatch_strRefOf_eq_false node "&!" (by decide) (by decide) (by decide)
  have hb1 : (("&" : String) == "&!") = false := by decide
  have hb2 : (("&!" : String) == "&") = false := by decide
  refine ⟨?_, ?_, ?_⟩
  · rw [profilePatternMatch, hamp, hb1]
    simp
  · rw [profilePatternMatch, hampb, hb2]
    simp
  · intro pattern h1 h2
    have hp1 : (pattern == "&") = false := by simpa using h1
    have hp2 : (pattern == "&!") = false := by simpa using h2
    rw [profilePatternMatch, hp1, hp2]
    simp

def wC4Node : MNode :=
  ⟨"zlib", RecipeKind.regular, BinaryStatus.cache, "pid",
    some ⟨"zlib", "1.2", none, none, none⟩⟩

/-- Witness for C4 at a glob pattern that is neither `&` nor `&!`. -/
theorem profile_pattern_match_spec_witness :
    ("zlib*" : String) ≠ "&" ∧ ("zlib*" : String) ≠ "&!" ∧
    (profilePatternMatch wC4Node "zlib*" = true ↔
      fnmatch (strRefOf wC4Node) "zlib*" = true) :=
  ⟨by decide, by decide,
   (profile_pattern_match_spec wC4Node).2.2 "zlib*" (by decide) (by decide)⟩

/-! ## Stable-sort lemmas for the closure ordering -/

theorem mem_sortInsert (key : ν → Nat) (x a : ν) (l : List ν) :
    a ∈ sortInsert key x l ↔ a = x ∨ a ∈ l := by
  induction l with
  | nil => simp [sortInsert]
  | cons y ys ih =>
    rw [sortInsert]
    by_cases h : key x ≤ key y
    · rw [if_pos h]
      simp [or_comm, or_left_comm]
    · rw [if_neg h]
      simp [ih]
      tauto

theorem pairwise_sortInsert (key : ν → Nat) (x : ν) (l : List ν)
    (h : List.Pairwise (fun a b => key a ≤ key b) l) :
    List.Pairwise (fun a b => key a ≤ key b) (sortInsert key x l) := by
  induction l with
  | nil => simp [sortInsert]
  | cons y ys ih =>
    rw [List.pairwise_cons] at h
    obtain ⟨hy, hys⟩ := h
    rw [sortInsert]
    by_cases hxy : key x ≤ key y
    · rw [if_pos hxy, List.pairwise_cons]
      constructor
      · intro a ha
        rcases List.mem_cons.1 ha with rfl | ha
        · exact hxy
        · exact le_trans hxy (hy a ha)
      · rw [List.pairwise_cons]
        exact ⟨hy, hys⟩
    · rw [if_neg hxy, List.pairwise_cons]
      constructor
      · intro a ha
        rcases (mem_sortInsert key x a ys).1 ha with rfl | ha
        · omega
        · exact hy a ha
      · exact ih hys

theorem sortInsert_perm (key : ν → Nat) (x : ν) (l : List ν) :
    (sortInsert key x l).Perm (x :: l) := by
  induction l with
  | nil => simp [sortInsert]
  | cons y ys ih =>
    rw [sortInsert]
    by_cases h : key x ≤ key y
    · rw [if_pos h]
    · rw [if_neg h]
      exact (List.Perm.cons y ih).trans (List.Perm.swap x y ys)

theorem stableSortBy_perm (key : ν → Nat) (l : List ν) :
    (stableSortBy key l).Perm l := by
  induction l with
  | nil => simp [stableSortBy]
  | cons x xs ih =>
    rw [stableSortBy]
    exact (sortInsert_perm key x (stableSortBy key xs)).trans (List.Perm.cons x ih)

theorem pairwise_stableSortBy (key : ν → Nat) (l : List ν) :
    List.Pairwise (fun a b => key a ≤ key b) (stableSortBy key l) := by
  induction l with
  | nil => simp [stableSortBy]
  | cons x xs ih =>
    rw [stableSortBy]
    exact pairwise_sortInsert key x _ ih

theorem filter_sortInsert (key : ν → Nat) (k : Nat) (x : ν) (l : List ν) :
    (sortInsert key x l).filter (fun v => key v == k) =
      if key x = k then x :: l.filter (fun v => key v == k)
      else l.filter (fun v => key v == k) := by
  induction l with
  | nil =>
    rw [sortInsert]
    by_cases hx : key x = k
    · simp [List.filter, hx]
    · have hbeq : (key x == k) = false := by simp [hx]
      simp [List.filter, hbeq, hx]
  | cons y ys ih =>
    rw [sortInsert]
    by_cases hxy : key x ≤ key y
    · rw [if_pos hxy]
      by_cases hx : key x = k <;> simp [List.filter_cons, hx]
    · rw [if_neg hxy]
      by_cases hx : key x = k
      · have hyk : ¬(key y = k) := by omega
        rw [if_pos hx]
        simp [List.filter_cons, ih, hyk, hx]
      · rw [if_neg hx]
        by_cases hyk : key y = k <;>
          simp [List.filter_cons, ih, hyk, hx]

theorem filter_stableSortBy (key : ν → Nat) (k : Nat) (l : List ν) :
    (stableSortBy key l).filter (fun v => key v == k) =
      l.filter (fun v => key v == k) := by
  induction l with
  | nil => simp [stableSortBy]
  | cons x xs ih =>
    rw [stableSortBy, filter_sortInsert]
    by_cases hx : key x = k <;> simp [List.filter_cons, hx, ih]

/-! ## C5: the closure-ordering pass -/

/-- C5: on every node whose closure holds an entry under its own name,
the ordering pass replaces the closure by the stable sort by inverse
level of its remaining entries: the popped remainder is the closure
without the node's own key, and the produced sequence is a permutation
of the remaining values that is sorted by level while entries of equal
level keep the closure's original insertion order. -/
theorem closure_order_stable_sort {ν : Type} (lvlOf : ν → Nat) (name : String)
    (closure : List (String × ν)) (v : ν) (rest : List (String × ν))
    (h : popKey closure name = some (v, rest)) :
    orderClosure lvlOf name closure =
      some (stableSortBy lvlOf (rest.map Prod.snd)) ∧
    keys rest = (keys closure).erase name ∧
    List.Pairwise (fun a b => lvlOf a ≤ lvlOf b)
      (stableSortBy lvlOf (rest.map Prod.snd)) ∧
    (stableSortBy lvlOf (rest.map Prod.snd)).Perm (rest.map Prod.snd) ∧
    (∀ k : Nat,
      (stableSortBy lvlOf (rest.map Prod.snd)).filter (fun x => lvlOf x == k) =
        (rest.map Prod.snd).filter (fun x => lvlOf x == k)) := by
  refine ⟨?_, popKey_keys closure name v rest h, pairwise_stableSortBy _ _,
    stableSortBy_perm _ _, fun k => filter_stableSortBy _ _ _⟩
  rw [orderClosure, h]

def wLvl : String → Nat :=
  fun v => (inverseLevelIndex [["libb"], ["liba"]] v).getD 0

/-- Witness for C5 on a two-entry closure. -/
theorem closure_order_stable_sort_witness :
    popKey [("A", "A"), ("B", "B")] "A" = some ("A", [("B", "B")]) ∧
    (orderClosure wLvl "A" [("A", "A"), ("B", "B")] =
        some (stableSortBy wLvl ([("B", "B")].map Prod.snd)) ∧
      keys [("B", "B")] = (keys [("A", "A"), ("B", "B")]).erase "A" ∧
      List.Pairwise (fun a b => wLvl a ≤ wLvl b)
        (stableSortBy wLvl ([("B", "B")].map Prod.snd)) ∧
      (stableSortBy wLvl ([("B", "B")].map Prod.snd)).Perm
        ([("B", "B")].map Prod.snd) ∧
      (∀ k : Nat,
        (stableSortBy wLvl ([("B", "B")].map Prod.snd)).filter
            (fun x => wLvl x == k) =
          ([("B", "B")].map Prod.snd).filter (fun x => wLvl x == k))) :=
  ⟨by decide,
   closure_order_stable_sort wLvl "A" [("A", "A"), ("B", "B")] "A" [("B", "B")]
     (by decide)⟩

/-! ## C6: does a closure ever contain the node itself? -/

/-- C6 counterexample: on a node state satisfying the claimed invariant —
a public closure with no entry under the node's own name — the ordering
pass of lines 291-292 does not produce an ordered closure at all: the
unconditional `closure.pop(node.name)` raises `KeyError` (modelled as
`none`).  Since `_load_graph` runs this pass on every node of every
resolved graph, the claim cannot hold at the point the pass runs. -/
theorem closure_self_missing_keyerror :
    containsKey [("B", "nodeB")] "A" = false ∧
    orderClosure (fun _ : String => 0) "A" [("B", "nodeB")] = none := by
  constructor <;> rfl

/-- C6 amended: when the closure-ordering pass runs, a node's public
closure must contain an entry under the node's own name — the pass
succeeds exactly in that case (and then removes the entry, so only after
the pass is the node absent from its own closure). -/
theorem closure_pass_requires_self_entry {ν : Type} (lvlOf : ν → Nat)
    (name : String) (closure : List (String × ν)) :
    (orderClosure lvlOf name closure).isSome = containsKey closure name := by
  rw [orderClosure, ← popKey_isSome]
  cases popKey closure name with
  | none => rfl
  | some pr =>
    obtain ⟨v, rest⟩ := pr
    rfl

/-! ## C7: graph-lock seeding and validation -/

/-- C7: after resolution, a missing lock is seeded fresh from the graph;
a supplied lock is validated — the step fails with
`LockInconsistencyError` exactly when some node id present in the lock
resolves to a different record than stored — and on success the supplied
lock is returned unchanged. -/
theorem graph_lock_finish_spec (g : List LockNode)
    (lock : List (Nat × LockRecord)) :
    finishGraphLock none g = Except.ok (seedGraphLock g) ∧
    (finishGraphLock (some lock) g = Except.error "LockInconsistencyError" ↔
      lockMismatch lock g = true) ∧
    (lockMismatch lock g = true ↔
      ∃ p ∈ lock, ∃ n, g.find? (fun n' => n'.id == p.1) = some n ∧
        recordOf n ≠ p.2) ∧
    (lockMismatch lock g = false →
      finishGraphLock (some lock) g = Except.ok lock) := by
  refine ⟨rfl, ?_, ?_, ?_⟩
  · rw [finishGraphLock]
    by_cases hm : lockMismatch lock g = true
    · simp [hm]
    · simp [hm]
  · rw [lockMismatch, List.any_eq_true]
    constructor
    · rintro ⟨p, hp, hmatch⟩
      refine ⟨p, hp, ?_⟩
      cases hf : g.find? (fun n' => n'.id == p.1) with
      | none => rw [hf] at hmatch; simp at hmatch
      | some n =>
        rw [hf] at hmatch
        simp at hmatch
        exact ⟨n, rfl, hmatch⟩
    · rintro ⟨p, hp, n, hf, hne⟩
      refine ⟨p, hp, ?_⟩
      rw [hf]
      simp [hne]
  · intro hm
    rw [finishGraphLock, if_neg (by simp [hm])]

def wLockNode : LockNode := ⟨1, ⟨"pkga", "1.0", none, none, none⟩, []⟩

def wLockGood : List (Nat × LockRecord) :=
  [(1, ⟨⟨"pkga", "1.0", none, none, none⟩, []⟩)]

def wLockBad : List (Nat × LockRecord) :=
  [(1, ⟨⟨"pkga", "2.0", none, none, none⟩, []⟩)]

/-- Witness for C7: a matching lock passes through unchanged; a
mismatching one errors. -/
theorem graph_lock_finish_spec_witness :
    lockMismatch wLockGood [wLockNode] = false ∧
    finishGraphLock (some wLockGood) [wLockNode] = Except.ok wLockGood ∧
    (finishGraphLock (some wLockBad) [wLockNode] =
        Except.error "LockInconsistencyError" ↔
      lockMismatch wLockBad [wLockNode] = true) :=
  ⟨by decide,
   (graph_lock_finish_spec [wLockNode] wLockGood).2.2.2 (by decide),
   (graph_lock_finish_spec [wLockNode] wLockBad).2.1⟩

/-! ## C10: the revision guard of `load_graph` -/

/-- C10: calling `load_graph` with a single reference that carries a
revision while revisions are disabled in the client configuration fails
with the dedicated `ConanException` message; no root node is produced. -/
theorem revision_without_revisions_enabled_errors (r : ConanRef) (rev : String)
    (h : r.revision = some rev) :
    loadGraphRootNode false (RootRef.confRef r) = Except.error revisionErrorMsg := by
  rw [loadGraphRootNode, if_pos]
  exact ⟨rfl, by simp [h]⟩

/-- Witness for C10 at a concrete revision-carrying reference. -/
theorem revision_without_revisions_enabled_errors_witness :
    (⟨"pkg", "1.0", none, none, some "0a1b"⟩ : ConanRef).revision = some "0a1b" ∧
    loadGraphRootNode false
        (RootRef.confRef ⟨"pkg", "1.0", none, none, some "0a1b"⟩) =
      Except.error revisionErrorMsg :=
  ⟨rfl, revision_without_revisions_enabled_errors _ "0a1b" rfl⟩

/-! ## C1: termination of the build-requires expansion -/

theorem maxRank_cons (rank : String → Nat) (n : MNode) (l : List MNode) :
    maxRank rank (n :: l) = max (rank n.name) (maxRank rank l) := rfl

theorem maxRank_le (rank : String → Nat) (R : Nat) (l : List MNode)
    (h : ∀ n : String, rank n ≤ R) : maxRank rank l ≤ R := by
  induction l with
  | nil => simp [maxRank]
  | cons n ns ih =>
    rw [maxRank_cons]
    exact max_le (h n.name) ih

theorem maxRank_lt (rank : String → Nat) (B : Nat) (l : List MNode)
    (hB : 0 < B) (h : ∀ n ∈ l, rank n.name < B) : maxRank rank l < B := by
  induction l with
  | nil => simpa [maxRank]
  | cons n ns ih =>
    rw [maxRank_cons]
    exact max_lt (h n (by simp)) (ih (fun m hm => h m (by simp [hm])))

theorem rbrAdd_pair_inv (A : List String) (m : RecipeBuildRequires)
    (br : ConanRef) (hm : ∀ p ∈ m, p.2.name = p.1 ∧ p.1 ∈ A)
    (hbr : br.name ∈ A) :
    ∀ p ∈ RecipeBuildRequires.add m br, p.2.name = p.1 ∧ p.1 ∈ A := by
  intro p hp
  rcases dictSet_mem m br.name br p hp with h | h
  · exact hm p h
  · rw [h]
    exact ⟨rfl, hbr⟩

theorem foldl_rbrAdd_pair_inv (A : List String) :
    ∀ brs : List ConanRef, (∀ b ∈ brs, b.name ∈ A) →
      ∀ m : RecipeBuildRequires, (∀ p ∈ m, p.2.name = p.1 ∧ p.1 ∈ A) →
      ∀ p ∈ brs.foldl RecipeBuildRequires.add m, p.2.name = p.1 ∧ p.1 ∈ A := by
  intro brs
  induction brs with
  | nil => intro _ m hm; simpa using hm
  | cons b bs ih =>
    intro hbrs m hm
    simp only [List.foldl_cons]
    exact ih (fun x hx => hbrs x (List.mem_cons_of_mem b hx)) _
      (rbrAdd_pair_inv A m b hm (hbrs b (List.mem_cons_self b bs)))

theorem rbrOf_pair_inv (brs : List ConanRef) :
    ∀ p ∈ rbrOf brs, p.2.name = p.1 ∧ p.1 ∈ brs.map ConanRef.name :=
  foldl_rbrAdd_pair_inv _ brs (fun _ hb => List.mem_map_of_mem _ hb) [] (by simp)

theorem applyProfileBR_pair_inv (A : List String) (nodeName : String)
    (st : RecipeBuildRequires × List ConanRef) (br : ConanRef)
    (hm : ∀ p ∈ st.1, p.2.name = p.1 ∧ p.1 ∈ A) :
    ∀ p ∈ (applyProfileBR nodeName st br).1, p.2.name = p.1 ∧ p.1 ∈ A := by
  intro p hp
  rw [applyProfileBR] at hp
  by_cases hc : containsKey st.1 br.name = true
  · rw [if_pos hc] at hp
    have hbrA : br.name ∈ A := by
      have hmem := (containsKey_iff st.1 br.name).1 hc
      rw [keys, List.mem_map] at hmem
      obtain ⟨q, hq, hq1⟩ := hmem
      rw [← hq1]
      exact (hm q hq).2
    rcases dictSet_mem st.1 br.name br p hp with h | h
    · exact hm p h
    · rw [h]
      exact ⟨rfl, hbrA⟩
  · rw [if_neg hc] at hp
    by_cases hn : br.name ≠ nodeName
    · rw [if_pos hn] at hp
      exact hm p hp
    · rw [if_neg hn] at hp
      exact hm p hp

theorem foldl_applyProfileBR_pair_inv (A : List String) (nodeName : String) :
    ∀ brs : List ConanRef, ∀ st : RecipeBuildRequires × List ConanRef,
      (∀ p ∈ st.1, p.2.name = p.1 ∧ p.1 ∈ A) →
      ∀ p ∈ (brs.foldl (applyProfileBR nodeName) st).1,
        p.2.name = p.1 ∧ p.1 ∈ A := by
  intro brs
  induction brs with
  | nil => intro st hst; simpa using hst
  | cons b bs ih =>
    intro st hst
    simp only [List.foldl_cons]
    exact ih _ (applyProfileBR_pair_inv A nodeName st b hst)

theorem processProfile_pair_inv (node : MNode)
    (profile : List (String × List ConanRef)) (pkg0 : RecipeBuildRequires)
    (A : List String) (h0 : ∀ p ∈ pkg0, p.2.name = p.1 ∧ p.1 ∈ A) :
    ∀ p ∈ (processProfile node profile pkg0).1, p.2.name = p.1 ∧ p.1 ∈ A := by
  rw [processProfile]
  suffices H : ∀ (entries : List (String × List ConanRef))
      (st : RecipeBuildRequires × List ConanRef),
      (∀ p ∈ st.1, p.2.name = p.1 ∧ p.1 ∈ A) →
      ∀ p ∈ (entries.foldl
        (fun st entry =>
          if profilePatternMatch node entry.1 then
            entry.2.foldl (applyProfileBR node.name) st
          else st) st).1, p.2.name = p.1 ∧ p.1 ∈ A by
    exact H profile (pkg0, []) h0
  intro entries
  induction entries with
  | nil => intro st hst; exact hst
  | cons e es ih =>
    intro st hst
    simp only [List.foldl_cons]
    apply ih
    by_cases hmatch : profilePatternMatch node e.1 = true
    · rw [if_pos hmatch]
      exact foldl_applyProfileBR_pair_inv A node.name e.2 st hst
    · rw [if_neg hmatch]
      exact hst

/-- C1: the build-requires expansion terminates for every finite subgraph
and profile policy whenever the recipe-declared build-requirement
relation has finite depth (witnessed by a rank that drops along declared
requirements and is bounded by `R`): a recursion depth of
`brMeasure + 1 ≤ 2R + 2` frames always suffices.  The profile-introduced
branch recurses with an empty policy (so patterns such as `&!` are never
re-applied to the nodes it adds), which is exactly what bounds the
measure. -/
theorem build_requires_expansion_terminates (env : BREnv)
    (rank : String → Nat) (R : Nat)
    (hdec : ∀ n : String, ∀ br ∈ env.declaredBR n, rank br.name < rank n)
    (hR : ∀ n : String, rank n ≤ R) :
    ∀ (fuel : Nat) (profile : List (String × List ConanRef))
      (subgraph : List MNode),
      brMeasure rank R profile subgraph < fuel →
      (recurseBuildRequires env fuel profile subgraph).isSome = true := by
  intro fuel
  induction fuel with
  | zero =>
    intro profile subgraph h
    exact absurd h (by omega)
  | succ f ih =>
    intro profile subgraph
    induction subgraph with
    | nil =>
      intro _
      simp [recurseBuildRequires, recurseStep]
    | cons node rest ihr =>
      intro hm
      have hrankle : rank node.name ≤ maxRank rank (node :: rest) := by
        rw [maxRank_cons]
        exact le_max_left _ _
      have hrestle : maxRank rank rest ≤ maxRank rank (node :: rest) := by
        rw [maxRank_cons]
        exact le_max_right _ _
      have hrest : brMeasure rank R profile rest < f + 1 := by
        rw [brMeasure] at hm ⊢
        generalize hF : (if profile.isEmpty then 0 else R + 1) = F at hm ⊢
        omega
      by_cases hev : evalBuildRequires node = false
      · have hskip : recurseBuildRequires env (f + 1) profile (node :: rest) =
            recurseBuildRequires env (f + 1) profile rest := by
          simp only [recurseBuildRequires, recurseStep]
          rw [if_pos hev]
        rw [hskip]
        exact ihr hrest
      · simp only [recurseBuildRequires, recurseStep]
        rw [if_neg hev]
        have hpairs := processProfile_pair_inv node profile
          (rbrOf (env.declaredBR node.name))
          ((env.declaredBR node.name).map ConanRef.name)
          (rbrOf_pair_inv _)
        have hranks : ∀ p ∈ (processProfile node profile
            (rbrOf (env.declaredBR node.name))).1,
            rank p.2.name < rank node.name := by
          intro p hp
          obtain ⟨hnm, hA⟩ := hpairs p hp
          rw [hnm]
          obtain ⟨b, hb, hbname⟩ := List.mem_map.1 hA
          rw [← hbname]
          exact hdec node.name b hb
        have hr1 : (if (processProfile node profile
              (rbrOf (env.declaredBR node.name))).1.isEmpty then some ()
            else recurseBuildRequires env f profile
              ((processProfile node profile
                (rbrOf (env.declaredBR node.name))).1.map
                  (fun p => mkBRNode env p.2))).isSome = true := by
          by_cases hemp : (processProfile node profile
              (rbrOf (env.declaredBR node.name))).1.isEmpty
          · simp [hemp]
          · rw [if_neg hemp]
            apply ih
            have hne : (processProfile node profile
                (rbrOf (env.declaredBR node.name))).1 ≠ [] := by
              intro hnil
              rw [hnil] at hemp
              exact hemp rfl
            obtain ⟨p0, hp0⟩ := List.exists_mem_of_ne_nil _ hne
            have hpos : 0 < rank node.name :=
              Nat.pos_of_ne_zero (fun h0 => by
                have := hranks p0 hp0
                omega)
            have hchild : maxRank rank ((processProfile node profile
                (rbrOf (env.declaredBR node.name))).1.map
                  (fun p => mkBRNode env p.2)) < rank node.name := by
              apply maxRank_lt rank _ _ hpos
              intro n hn
              obtain ⟨p, hp, hpn⟩ := List.mem_map.1 hn
              rw [← hpn]
              exact hranks p hp
            rw [brMeasure] at hm ⊢
            generalize hF : (if profile.isEmpty then 0 else R + 1) = F at hm ⊢
            omega
        have hr2 : (if (processProfile node profile
              (rbrOf (env.declaredBR node.name))).2.isEmpty then some ()
            else recurseBuildRequires env f []
              ((processProfile node profile
                (rbrOf (env.declaredBR node.name))).2.map
                  (fun b => mkBRNode env b))).isSome = true := by
          by_cases hemp : (processProfile node profile
              (rbrOf (env.declaredBR node.name))).2.isEmpty
          · simp [hemp]
          · rw [if_neg hemp]
            apply ih
            have hprof : profile.isEmpty = false := by
              cases hp : profile with
              | nil =>
                rw [hp] at hemp
                exact absurd rfl hemp
              | cons e es => rfl
            have hchild2 : maxRank rank ((processProfile node profile
                (rbrOf (env.declaredBR node.name))).2.map
                  (fun b => mkBRNode env b)) ≤ R := maxRank_le rank R _ hR
            have hflagP : (if profile.isEmpty then 0 else R + 1) = R + 1 := by
              rw [hprof]
              simp
            have hflagE :
                (if ([] : List (String × List ConanRef)).isEmpty then 0
                 else R + 1) = 0 := by simp
            rw [brMeasure] at hm ⊢
            rw [hflagP] at hm
            rw [hflagE]
            omega
        obtain ⟨u1, hu1⟩ := Option.isSome_iff_exists.1 hr1
        obtain ⟨u2, hu2⟩ := Option.isSome_iff_exists.1 hr2
        rw [hu1, hu2]
        exact ihr hrest

def wLibRef : ConanRef := ⟨"lib", "1.0", none, none, none⟩

def wToolRef : ConanRef := ⟨"tool", "1.0", none, none, none⟩

def wC1Env : BREnv :=
  ⟨fun n => if n = "app" then [wLibRef] else [],
   fun _ => BinaryStatus.build, fun _ => PACKAGE_ID_UNKNOWN⟩

def wC1Rank : String → Nat := fun n => if n = "app" then 1 else 0

def wC1Node : MNode :=
  ⟨"app", RecipeKind.consumer, BinaryStatus.build, PACKAGE_ID_UNKNOWN, none⟩

/-- Witness for C1: a consumer with one declared build-requirement under
a blanket profile policy finishes within the computed bound. -/
theorem build_requires_expansion_terminates_witness :
    brMeasure wC1Rank 1 [("&", [wToolRef])] [wC1Node] < 4 ∧
    (recurseBuildRequires wC1Env 4 [("&", [wToolRef])] [wC1Node]).isSome = true :=
  ⟨by decide,
   build_requires_expansion_terminates wC1Env wC1Rank 1
     (by
       intro n br hbr
       by_cases h : n = "app"
       · subst h
         simp only [wC1Env, if_pos rfl] at hbr
         have hbr' : br = wLibRef := by simpa using hbr
         rw [hbr']
         decide
       · simp [wC1Env, h] at hbr)
     (by
       intro n
       by_cases h : n = "app" <;> simp [wC1Rank, h])
     4 [("&", [wToolRef])] [wC1Node] (by decide)⟩

end Conan
